import Mathlib

/-!
Shallow embedding of the `simplz_blockchain` program (src/src/main.rs).

The Rust program defines a `Block` struct (index, timestamp, data, prev_hash,
hash, nonce), a SHA-256 based `calculate_hash`, a proof-of-work mining loop
`mine_block`, and a `Blockchain` (a vector of blocks) with genesis
construction, `latest_block`, `add_block` and `is_valid_chain`.

Modelling decisions:
- The SHA-256 digest (hex-encoded, via `format!("{:x}", ...)`) and the wall
  clock (`Utc::now().timestamp()`) are external services; they are passed as
  explicit parameters `digest : String → String` and `now : Int`.
- `mine_block`'s `while` loop is partial in general (it terminates only when
  a solving nonce exists), so it is embedded with an explicit fuel parameter
  and an `Option Block` result; `none` models the loop still running after
  `fuel` iterations.  `Blockchain.latest_block`'s `unwrap` is likewise
  modelled by `Option`.
- `index : u32`, `nonce : u64` are modelled as `Nat`, `timestamp : i64` as
  `Int`; no claim concerns integer wrap-around, which is unreachable at the
  program's scale.  `toString` on `Nat`/`Int` coincides with Rust's `{}`
  (decimal) rendering of these fields.
- `&self.hash[..difficulty]` slices the first `difficulty` bytes of an
  ASCII hex string; it is modelled by `String.take`.
-/

/-- `"0".repeat(difficulty)`: the mining target string. -/
def zeros (d : Nat) : String := ⟨List.replicate d '0'⟩

/-- The `Block` struct of main.rs. -/
structure Block where
  index : Nat
  timestamp : Int
  data : String
  prev_hash : String
  hash : String
  nonce : Nat
deriving DecidableEq

/-- The digest input of `Block::calculate_hash`:
`format!("{}{}{}{}{}", index, timestamp, data, prev_hash, nonce)` —
un-delimited concatenation of the decimal renderings and the raw strings. -/
def blockContent (index : Nat) (timestamp : Int) (data prev_hash : String)
    (nonce : Nat) : String :=
  toString index ++ toString timestamp ++ data ++ prev_hash ++ toString nonce

/-- `Block::calculate_hash`, with the SHA-256 hex digest abstracted as
`digest`. -/
def Block.calculate_hash (digest : String → String) (b : Block) : String :=
  digest (blockContent b.index b.timestamp b.data b.prev_hash b.nonce)

/-- One iteration of the body of `mine_block`'s `while` loop:
`self.nonce += 1; self.hash = self.calculate_hash();`. -/
def mineStep (digest : String → String) (b : Block) : Block :=
  let b' : Block := { b with nonce := b.nonce + 1 }
  { b' with hash := b'.calculate_hash digest }

/-- The `while &self.hash[..difficulty] != target` loop of `mine_block`,
with fuel: `none` means the loop has not yet exited after `fuel`
iterations. -/
def mineLoop (digest : String → String) (difficulty : Nat) :
    Nat → Block → Option Block
  | fuel, b =>
    if b.hash.take difficulty = zeros difficulty then some b
    else
      match fuel with
      | 0 => none
      | fuel' + 1 => mineLoop digest difficulty fuel' (mineStep digest b)

/-- `Block::mine_block`: set `hash = calculate_hash()` then run the loop. -/
def Block.mine_block (digest : String → String) (difficulty fuel : Nat)
    (b : Block) : Option Block :=
  mineLoop digest difficulty fuel { b with hash := b.calculate_hash digest }

/-- `Block::new(index, data, prev_hash)`: build the block with the current
timestamp, `hash = ""`, `nonce = 0`, and mine it at difficulty 4. -/
def Block.new (digest : String → String) (now : Int) (fuel : Nat)
    (index : Nat) (data prev_hash : String) : Option Block :=
  Block.mine_block digest 4 fuel
    { index := index, timestamp := now, data := data, prev_hash := prev_hash,
      hash := "", nonce := 0 }

/-- The `Blockchain` struct of main.rs. -/
structure Blockchain where
  chain : List Block
deriving DecidableEq

/-- `Blockchain::new`: a chain holding exactly the genesis block
(index 0, timestamp 0, data "Genesis Block", empty prev_hash, nonce 0),
mined at difficulty 4. -/
def Blockchain.new (digest : String → String) (fuel : Nat) :
    Option Blockchain :=
  (Block.mine_block digest 4 fuel
    { index := 0, timestamp := 0, data := "Genesis Block", prev_hash := "",
      hash := "", nonce := 0 }).map fun g => ⟨[g]⟩

/-- `Blockchain::latest_block`: `self.chain.last()`; the Rust code then
calls `.unwrap()`, whose panic branch corresponds to `none` here. -/
def Blockchain.latest_block (bc : Blockchain) : Option Block :=
  bc.chain.getLast?

/-- `Blockchain::add_block(data)`: read the latest block's hash, build a
new block with `index = self.chain.len()` and mine it, then push it. -/
def Blockchain.add_block (digest : String → String) (now : Int) (fuel : Nat)
    (bc : Blockchain) (data : String) : Option Blockchain :=
  match bc.latest_block with
  | none => none
  | some latest =>
      (Block.new digest now fuel bc.chain.length data latest.hash).map
        fun b => ⟨bc.chain ++ [b]⟩

/-- The `for i in 1..len` loop of `is_valid_chain`, carrying the previous
block: checks `current.hash == current.calculate_hash()` and
`current.prev_hash == previous.hash` for each current block. -/
def is_valid_from (digest : String → String) : Block → List Block → Bool
  | _, [] => true
  | previous, current :: rest =>
    if current.hash ≠ current.calculate_hash digest then false
    else if current.prev_hash ≠ previous.hash then false
    else is_valid_from digest current rest

/-- `Blockchain::is_valid_chain`. -/
def Blockchain.is_valid_chain (digest : String → String)
    (bc : Blockchain) : Bool :=
  match bc.chain with
  | [] => true
  | b :: rest => is_valid_from digest b rest

/-- A finite sequence of `add_block` calls, each with its own wall-clock
timestamp, payload and fuel; `none` if any mining run exhausts its fuel. -/
def addBlocks (digest : String → String) :
    Blockchain → List (Int × String × Nat) → Option Blockchain
  | bc, [] => some bc
  | bc, (t, d, fuel) :: rest =>
    match Blockchain.add_block digest t fuel bc d with
    | none => none
    | some bc' => addBlocks digest bc' rest

/-- A chain built purely by one `Blockchain::new` call followed by a finite
sequence of `add_block` calls. -/
def buildChain (digest : String → String) (fuel : Nat)
    (steps : List (Int × String × Nat)) : Option Blockchain :=
  match Blockchain.new digest fuel with
  | none => none
  | some bc => addBlocks digest bc steps

/-! ### Basic facts about the mining loop -/

theorem mineLoop_zero (digest : String → String) (d : Nat) (b : Block) :
    mineLoop digest d 0 b =
      if b.hash.take d = zeros d then some b else none := rfl

theorem mineLoop_succ (digest : String → String) (d fuel : Nat) (b : Block) :
    mineLoop digest d (fuel + 1) b =
      if b.hash.take d = zeros d then some b
      else mineLoop digest d fuel (mineStep digest b) := rfl

/-- The loop only ever touches `nonce` and `hash`: the four content fields
`index`, `timestamp`, `data`, `prev_hash` of the mined block are those of
the input block. -/
theorem mineLoop_fields {digest : String → String} {d : Nat} :
    ∀ {fuel : Nat} {b b' : Block}, mineLoop digest d fuel b = some b' →
      b'.index = b.index ∧ b'.timestamp = b.timestamp ∧
      b'.data = b.data ∧ b'.prev_hash = b.prev_hash := by
  intro fuel
  induction fuel with
  | zero =>
    intro b b' h
    rw [mineLoop_zero] at h
    split at h
    · cases h; exact ⟨rfl, rfl, rfl, rfl⟩
    · cases h
  | succ f ih =>
    intro b b' h
    rw [mineLoop_succ] at h
    split at h
    · cases h; exact ⟨rfl, rfl, rfl, rfl⟩
    · simpa [mineStep] using ih h

/-- The loop maintains `hash = calculate_hash` and hence returns a block
whose stored hash is the digest of its own stored fields. -/
theorem mineLoop_selfhash {digest : String → String} {d : Nat} :
    ∀ {fuel : Nat} {b b' : Block}, b.hash = b.calculate_hash digest →
      mineLoop digest d fuel b = some b' →
      b'.hash = b'.calculate_hash digest := by
  intro fuel
  induction fuel with
  | zero =>
    intro b b' hb h
    rw [mineLoop_zero] at h
    split at h
    · cases h; exact hb
    · cases h
  | succ f ih =>
    intro b b' hb h
    rw [mineLoop_succ] at h
    split at h
    · cases h; exact hb
    · exact ih rfl h

/-- The loop exits only when the first `d` characters of the hash are the
target `zeros d`. -/
theorem mineLoop_pow {digest : String → String} {d : Nat} :
    ∀ {fuel : Nat} {b b' : Block}, mineLoop digest d fuel b = some b' →
      b'.hash.take d = zeros d := by
  intro fuel
  induction fuel with
  | zero =>
    intro b b' h
    rw [mineLoop_zero] at h
    split at h
    · cases h; assumption
    · cases h
  | succ f ih =>
    intro b b' h
    rw [mineLoop_succ] at h
    split at h
    · cases h; assumption
    · exact ih h

/-- The result of the loop does not depend on how much fuel was supplied:
any two successful runs from the same block agree. -/
theorem mineLoop_det {digest : String → String} {d : Nat} :
    ∀ {f1 f2 : Nat} {b b1 b2 : Block},
      mineLoop digest d f1 b = some b1 → mineLoop digest d f2 b = some b2 →
      b1 = b2 := by
  intro f1
  induction f1 with
  | zero =>
    intro f2 b b1 b2 h1 h2
    rw [mineLoop_zero] at h1
    by_cases hc : b.hash.take d = zeros d
    · rw [if_pos hc] at h1
      cases h1
      cases f2 with
      | zero => rw [mineLoop_zero, if_pos hc] at h2; cases h2; rfl
      | succ f => rw [mineLoop_succ, if_pos hc] at h2; cases h2; rfl
    · rw [if_neg hc] at h1; cases h1
  | succ f ih =>
    intro f2 b b1 b2 h1 h2
    rw [mineLoop_succ] at h1
    by_cases hc : b.hash.take d = zeros d
    · rw [if_pos hc] at h1
      cases h1
      cases f2 with
      | zero => rw [mineLoop_zero, if_pos hc] at h2; cases h2; rfl
      | succ f' => rw [mineLoop_succ, if_pos hc] at h2; cases h2; rfl
    · rw [if_neg hc] at h1
      cases f2 with
      | zero => rw [mineLoop_zero, if_neg hc] at h2; cases h2
      | succ f' =>
        rw [mineLoop_succ, if_neg hc] at h2
        exact ih h1 h2

/-- `n` is a winning nonce for the content fields of `b` at difficulty `d`. -/
def solvesAt (digest : String → String) (d : Nat) (b : Block) (n : Nat) : Prop :=
  (digest (blockContent b.index b.timestamp b.data b.prev_hash n)).take d = zeros d

/-- If some winning nonce lies within `fuel` increments of the current
nonce, the loop exits successfully. -/
theorem mineLoop_term {digest : String → String} {d : Nat} :
    ∀ (fuel : Nat) (b : Block), b.hash = b.calculate_hash digest →
      (∃ n, b.nonce ≤ n ∧ n ≤ b.nonce + fuel ∧ solvesAt digest d b n) →
      ∃ b', mineLoop digest d fuel b = some b' := by
  intro fuel
  induction fuel with
  | zero =>
    rintro b hb ⟨n, h1, h2, h3⟩
    have hn : n = b.nonce := le_antisymm (by simpa using h2) h1
    subst hn
    have hc : b.hash.take d = zeros d := by rw [hb]; exact h3
    exact ⟨b, by rw [mineLoop_zero, if_pos hc]⟩
  | succ f ih =>
    rintro b hb ⟨n, h1, h2, h3⟩
    by_cases hc : b.hash.take d = zeros d
    · exact ⟨b, by rw [mineLoop_succ, if_pos hc]⟩
    · have hnb : n ≠ b.nonce := by
        intro he
        subst he
        exact hc (by rw [hb]; exact h3)
      have h1' : b.nonce + 1 ≤ n := Nat.lt_of_le_of_ne h1 (Ne.symm hnb)
      obtain ⟨b', hb'⟩ :=
        ih (mineStep digest b) rfl ⟨n, h1', by simpa [mineStep, Nat.add_assoc, Nat.add_comm 1 f] using h2, h3⟩
      exact ⟨b', by rw [mineLoop_succ, if_neg hc]; exact hb'⟩

/-! ### Specifications of the constructors -/

/-- Everything `Block::mine_block` guarantees about a successful run. -/
theorem Block.mine_block_spec {digest : String → String} {d fuel : Nat}
    {b b' : Block} (h : Block.mine_block digest d fuel b = some b') :
    b'.index = b.index ∧ b'.timestamp = b.timestamp ∧ b'.data = b.data ∧
    b'.prev_hash = b.prev_hash ∧ b'.hash = b'.calculate_hash digest ∧
    b'.hash.take d = zeros d := by
  unfold Block.mine_block at h
  obtain ⟨h1, h2, h3, h4⟩ := mineLoop_fields h
  exact ⟨h1, h2, h3, h4, mineLoop_selfhash rfl h, mineLoop_pow h⟩

/-- Everything `Block::new` guarantees about a successful run. -/
theorem Block.new_props {digest : String → String} {now : Int}
    {fuel index : Nat} {data ph : String} {b : Block}
    (h : Block.new digest now fuel index data ph = some b) :
    b.index = index ∧ b.timestamp = now ∧ b.data = data ∧ b.prev_hash = ph ∧
    b.hash = b.calculate_hash digest ∧ b.hash.take 4 = zeros 4 :=
  Block.mine_block_spec h

/-- Everything `Blockchain::new` guarantees about a successful run. -/
theorem Blockchain.new_genesis {digest : String → String} {fuel : Nat}
    {bc : Blockchain} (h : Blockchain.new digest fuel = some bc) :
    ∃ g, bc.chain = [g] ∧ g.index = 0 ∧ g.timestamp = 0 ∧
      g.data = "Genesis Block" ∧ g.prev_hash = "" ∧
      g.hash = g.calculate_hash digest ∧ g.hash.take 4 = zeros 4 := by
  unfold Blockchain.new at h
  rw [Option.map_eq_some'] at h
  obtain ⟨g, hg, rfl⟩ := h
  obtain ⟨h1, h2, h3, h4, h5, h6⟩ := Block.mine_block_spec hg
  exact ⟨g, rfl, h1, h2, h3, h4, h5, h6⟩

/-- Everything `Blockchain::add_block` guarantees about a successful run. -/
theorem Blockchain.add_block_spec {digest : String → String} {now : Int}
    {fuel : Nat} {bc bc' : Blockchain} {data : String}
    (h : Blockchain.add_block digest now fuel bc data = some bc') :
    ∃ latest b, bc.latest_block = some latest ∧
      bc'.chain = bc.chain ++ [b] ∧ b.index = bc.chain.length ∧
      b.timestamp = now ∧ b.data = data ∧ b.prev_hash = latest.hash ∧
      b.hash = b.calculate_hash digest ∧ b.hash.take 4 = zeros 4 := by
  unfold Blockchain.add_block at h
  cases hl : bc.latest_block with
  | none => rw [hl] at h; cases h
  | some latest =>
    rw [hl, Option.map_eq_some'] at h
    obtain ⟨b, hb, rfl⟩ := h
    obtain ⟨h1, h2, h3, h4, h5, h6⟩ := Block.new_props hb
    exact ⟨latest, b, rfl, rfl, h1, h2, h3, h4, h5, h6⟩

/-! ### The reachable-chain invariant -/

/-- The linkage relation between adjacent blocks. -/
def linkRel (a b : Block) : Prop := b.prev_hash = a.hash

/-- Invariant satisfied by every chain built purely by `Blockchain::new`
followed by `add_block` calls. -/
structure ChainInv (digest : String → String) (l : List Block) : Prop where
  ne : l ≠ []
  idx : l.map Block.index = List.range l.length
  head_prev : ∀ g ∈ l.head?, g.prev_hash = ""
  link : List.Chain' linkRel l
  selfhash : ∀ b ∈ l, b.hash = b.calculate_hash digest
  pow : ∀ b ∈ l, b.hash.take 4 = zeros 4

theorem ChainInv.of_new {digest : String → String} {fuel : Nat}
    {bc : Blockchain} (h : Blockchain.new digest fuel = some bc) :
    ChainInv digest bc.chain := by
  obtain ⟨g, hc, h1, h2, h3, h4, h5, h6⟩ := Blockchain.new_genesis h
  rw [hc]
  exact
    { ne := by simp
      idx := by
        have : List.range 1 = [0] := rfl
        simp [h1, this]
      head_prev := by simpa using h4
      link := List.chain'_singleton g
      selfhash := by simpa using h5
      pow := by simpa using h6 }

theorem ChainInv.of_add {digest : String → String} {now : Int} {fuel : Nat}
    {bc bc' : Blockchain} {data : String} (inv : ChainInv digest bc.chain)
    (h : Blockchain.add_block digest now fuel bc data = some bc') :
    ChainInv digest bc'.chain := by
  obtain ⟨latest, b, hl, hchain, hidx, -, -, hprev, hsh, hpow⟩ :=
    Blockchain.add_block_spec h
  rw [hchain]
  refine
    { ne := by simp
      idx := ?_
      head_prev := ?_
      link := ?_
      selfhash := ?_
      pow := ?_ }
  · rw [List.map_append, inv.idx, List.length_append]
    simp [hidx, List.range_succ]
  · intro g hg
    rw [List.head?_append] at hg
    obtain ⟨g0, t, he⟩ := List.exists_cons_of_ne_nil inv.ne
    rw [he] at hg
    simp only [List.head?_cons, Option.or_some] at hg
    cases hg
    exact inv.head_prev g (by rw [he]; rfl)
  · refine List.Chain'.append inv.link (List.chain'_singleton b) ?_
    intro x hx y hy
    simp only [List.head?_cons, Option.mem_def, Option.some.injEq] at hy
    subst hy
    have hx' : x = latest := by
      have : bc.chain.getLast? = some latest := hl
      rw [Option.mem_def, this, Option.some.injEq] at hx
      exact hx.symm
    subst hx'
    exact hprev
  · intro x hx
    rcases List.mem_append.1 hx with hm | hm
    · exact inv.selfhash x hm
    · rw [List.mem_singleton.1 hm]; exact hsh
  · intro x hx
    rcases List.mem_append.1 hx with hm | hm
    · exact inv.pow x hm
    · rw [List.mem_singleton.1 hm]; exact hpow

theorem addBlocks_inv {digest : String → String} :
    ∀ {steps : List (Int × String × Nat)} {bc bc' : Blockchain},
      ChainInv digest bc.chain → addBlocks digest bc steps = some bc' →
      ChainInv digest bc'.chain := by
  intro steps
  induction steps with
  | nil =>
    intro bc bc' inv h
    cases h
    exact inv
  | cons s rest ih =>
    intro bc bc' inv h
    obtain ⟨t, d, f⟩ := s
    simp only [addBlocks] at h
    cases ha : Blockchain.add_block digest t f bc d with
    | none => rw [ha] at h; cases h
    | some bcm => rw [ha] at h; exact ih (ChainInv.of_add inv ha) h

/-- Every successfully built chain satisfies the invariant. -/
theorem buildChain_inv {digest : String → String} {fuel : Nat}
    {steps : List (Int × String × Nat)} {bc : Blockchain}
    (h : buildChain digest fuel steps = some bc) :
    ChainInv digest bc.chain := by
  unfold buildChain at h
  cases hn : Blockchain.new digest fuel with
  | none => rw [hn] at h; cases h
  | some bc0 =>
    rw [hn] at h
    exact addBlocks_inv (ChainInv.of_new hn) h

/-- Positional indices: block `i` of an invariant chain has `index = i`. -/
theorem ChainInv.index_get {digest : String → String} {l : List Block}
    (inv : ChainInv digest l) (i : Nat) (h : i < l.length) :
    (l.get ⟨i, h⟩).index = i := by
  have h1 : (l.map Block.index)[i]? = (List.range l.length)[i]? := by
    rw [inv.idx]
  rw [List.getElem?_map, List.getElem?_eq_getElem h, List.getElem?_range h]
    at h1
  simpa using h1

/-- The last block of an invariant chain has `index + 1 = length`. -/
theorem ChainInv.latest_index {digest : String → String} {l : List Block}
    (inv : ChainInv digest l) {last : Block} (h : l.getLast? = some last) :
    last.index + 1 = l.length := by
  have hne : l ≠ [] := inv.ne
  have hlen : 0 < l.length := List.length_pos.2 hne
  rw [List.getLast?_eq_getElem?, List.getElem?_eq_getElem (by omega)] at h
  have h2 : l[l.length - 1].index = l.length - 1 := by
    simpa using inv.index_get (l.length - 1) (by omega)
  simp only [Option.some.injEq] at h
  rw [h] at h2
  omega

/-! ### Characterization of `is_valid_chain` -/

/-- The two checks `is_valid_chain` performs on an adjacent pair
(`a` = previous, `b` = current). -/
def pairRel (digest : String → String) (a b : Block) : Prop :=
  b.calculate_hash digest = b.hash ∧ b.prev_hash = a.hash

theorem is_valid_from_iff (digest : String → String) :
    ∀ (l : List Block) (a : Block),
      is_valid_from digest a l = true ↔ List.Chain (pairRel digest) a l := by
  intro l
  induction l with
  | nil => intro a; simp [is_valid_from]
  | cons c rest ih =>
    intro a
    rw [List.chain_cons]
    by_cases h1 : c.hash = c.calculate_hash digest
    · by_cases h2 : c.prev_hash = a.hash
      · have he : is_valid_from digest a (c :: rest) =
            is_valid_from digest c rest := by
          simp [is_valid_from, h1, h2]
        rw [he, ih c]
        simp [pairRel, h1.symm, h2]
      · have he : is_valid_from digest a (c :: rest) = false := by
          simp [is_valid_from, h2]
        simp [he, pairRel, h2]
    · have he : is_valid_from digest a (c :: rest) = false := by
        simp [is_valid_from, h1]
      simp only [he, Bool.false_eq_true, false_iff]
      intro hcon
      exact h1 hcon.1.1.symm

theorem is_valid_chain_iff_chain' (digest : String → String)
    (bc : Blockchain) :
    bc.is_valid_chain digest = true ↔ List.Chain' (pairRel digest) bc.chain := by
  obtain ⟨l⟩ := bc
  cases l with
  | nil => simp [Blockchain.is_valid_chain]
  | cons b rest =>
    show is_valid_from digest b rest = true ↔ List.Chain (pairRel digest) b rest
    exact is_valid_from_iff digest rest b

/-- A chain satisfying the reachable-chain invariant passes verification. -/
theorem ChainInv.is_valid {digest : String → String} {bc : Blockchain}
    (inv : ChainInv digest bc.chain) :
    bc.is_valid_chain digest = true := by
  rw [is_valid_chain_iff_chain' digest bc, List.chain'_iff_get]
  intro i hi
  refine ⟨((inv.selfhash _ ?_).symm), List.chain'_iff_get.1 inv.link i hi⟩
  exact List.get_mem _ _ _

/-- The head of an invariant chain is a genesis-shaped block. -/
theorem ChainInv.head_shape {digest : String → String} {l : List Block}
    (inv : ChainInv digest l) :
    ∃ g t, l = g :: t ∧ g.index = 0 ∧ g.prev_hash = "" := by
  obtain ⟨g, t, he⟩ := List.exists_cons_of_ne_nil inv.ne
  refine ⟨g, t, he, ?_, inv.head_prev g (by rw [he]; rfl)⟩
  have hidx := inv.idx
  rw [he, List.length_cons, List.range_succ_eq_map, List.map_cons] at hidx
  simpa using congrArg List.head? hidx

/-! ### Concrete instances used by the witnesses -/

/-- A toy injective digest used only to build concrete witness chains:
every input is "mined" at nonce 0, since the digest starts with "0000". -/
def toyDigest (s : String) : String := "0000" ++ s

/-- The genesis block produced by `Blockchain.new toyDigest`. -/
def genesisToy : Block :=
  ⟨0, 0, "Genesis Block", "", "000000Genesis Block0", 0⟩

/-- The block appended by `add_block toyDigest 0 _ "First"` after genesis. -/
def firstToy : Block :=
  ⟨1, 0, "First", "000000Genesis Block0", "000010First000000Genesis Block00", 0⟩

/-- The two-block chain `buildChain toyDigest 0 [(0, "First", 0)]`. -/
def toyChain : Blockchain := ⟨[genesisToy, firstToy]⟩

/-- The block produced by `Block.new toyDigest 0 _ 1 "a" "b"`. -/
def blockToyAB : Block := ⟨1, 0, "a", "b", "000010ab0", 0⟩

/-! ### The claims -/

/-- C1: every block produced by the program's constructors — a block
returned by `Block::new`, and the genesis block produced inside
`Blockchain::new` — has a stored hash whose first 4 hexadecimal characters
are all '0' (the difficulty used is the fixed constant 4). -/
theorem mined_blocks_meet_difficulty (digest : String → String) (now : Int)
    (fuel fuel2 index : Nat) (data ph : String) (b : Block) (bc : Blockchain)
    (hb : Block.new digest now fuel index data ph = some b)
    (hbc : Blockchain.new digest fuel2 = some bc) :
    b.hash.take 4 = zeros 4 ∧ ∀ g ∈ bc.chain, g.hash.take 4 = zeros 4 := by
  refine ⟨(Block.new_props hb).2.2.2.2.2, ?_⟩
  obtain ⟨g, hc, -, -, -, -, -, h6⟩ := Blockchain.new_genesis hbc
  rw [hc]
  simpa using h6

theorem mined_blocks_meet_difficulty_w :
    Block.new toyDigest 0 0 1 "a" "b" = some blockToyAB ∧
    Blockchain.new toyDigest 0 = some ⟨[genesisToy]⟩ ∧
    (blockToyAB.hash.take 4 = zeros 4 ∧
      ∀ g ∈ (Blockchain.mk [genesisToy]).chain, g.hash.take 4 = zeros 4) :=
  ⟨by decide, by decide,
    mined_blocks_meet_difficulty toyDigest 0 0 0 1 "a" "b" blockToyAB
      ⟨[genesisToy]⟩ (by decide) (by decide)⟩

/-- C2: for every untampered block as returned by `Block::new` (or the
genesis block of `Blockchain::new`), `calculate_hash` returns a string
equal to its stored `hash` field. -/
theorem calculate_hash_roundtrip (digest : String → String) (now : Int)
    (fuel fuel2 index : Nat) (data ph : String) (b : Block) (bc : Blockchain)
    (hb : Block.new digest now fuel index data ph = some b)
    (hbc : Blockchain.new digest fuel2 = some bc) :
    b.calculate_hash digest = b.hash ∧
    ∀ g ∈ bc.chain, g.calculate_hash digest = g.hash := by
  refine ⟨(Block.new_props hb).2.2.2.2.1.symm, ?_⟩
  obtain ⟨g, hc, -, -, -, -, h5, -⟩ := Blockchain.new_genesis hbc
  rw [hc]
  simpa using h5.symm

theorem calculate_hash_roundtrip_w :
    Block.new toyDigest 0 0 1 "a" "b" = some blockToyAB ∧
    Blockchain.new toyDigest 0 = some ⟨[genesisToy]⟩ ∧
    (blockToyAB.calculate_hash toyDigest = blockToyAB.hash ∧
      ∀ g ∈ (Blockchain.mk [genesisToy]).chain,
        g.calculate_hash toyDigest = g.hash) :=
  ⟨by decide, by decide,
    calculate_hash_roundtrip toyDigest 0 0 0 1 "a" "b" blockToyAB
      ⟨[genesisToy]⟩ (by decide) (by decide)⟩

/-- C3: in a chain built purely by one `Blockchain::new` call followed by
any finite sequence of `add_block` calls, `blocks[i].prev_hash` equals
`blocks[i-1].hash` for every index `i ≥ 1` (stated with `i+1` in place of
`i`). -/
theorem chain_linkage (digest : String → String) (fuel : Nat)
    (steps : List (Int × String × Nat)) (bc : Blockchain)
    (h : buildChain digest fuel steps = some bc) :
    ∀ (i : Nat) (hi : i + 1 < bc.chain.length),
      (bc.chain.get ⟨i + 1, hi⟩).prev_hash =
        (bc.chain.get ⟨i, Nat.lt_of_succ_lt hi⟩).hash := by
  intro i hi
  exact List.chain'_iff_get.1 (buildChain_inv h).link i (by omega)

theorem chain_linkage_w :
    buildChain toyDigest 0 [(0, "First", 0)] = some toyChain ∧
    ∀ (i : Nat) (hi : i + 1 < toyChain.chain.length),
      (toyChain.chain.get ⟨i + 1, hi⟩).prev_hash =
        (toyChain.chain.get ⟨i, Nat.lt_of_succ_lt hi⟩).hash :=
  ⟨by decide,
    chain_linkage toyDigest 0 [(0, "First", 0)] toyChain (by decide)⟩

/-- C4: `is_valid_chain` returns true on every chain built purely by
`Blockchain::new` followed by `add_block` calls; and on an arbitrary chain
it returns true exactly when every adjacent pair passes both the
digest-recomputation check and the linkage check. -/
theorem is_valid_chain_correct (digest : String → String) (fuel : Nat)
    (steps : List (Int × String × Nat)) (bc bc2 : Blockchain)
    (h : buildChain digest fuel steps = some bc) :
    bc.is_valid_chain digest = true ∧
    (bc2.is_valid_chain digest = true ↔
      ∀ (i : Nat) (hi : i + 1 < bc2.chain.length),
        (bc2.chain.get ⟨i + 1, hi⟩).calculate_hash digest =
          (bc2.chain.get ⟨i + 1, hi⟩).hash ∧
        (bc2.chain.get ⟨i + 1, hi⟩).prev_hash =
          (bc2.chain.get ⟨i, Nat.lt_of_succ_lt hi⟩).hash) := by
  refine ⟨(buildChain_inv h).is_valid, ?_⟩
  rw [is_valid_chain_iff_chain' digest bc2, List.chain'_iff_get]
  constructor
  · intro hall i hi
    exact hall i (by omega)
  · intro hall i hi
    exact hall i (by omega)

theorem is_valid_chain_correct_w :
    buildChain toyDigest 0 [(0, "First", 0)] = some toyChain ∧
    (toyChain.is_valid_chain toyDigest = true ∧
      (toyChain.is_valid_chain toyDigest = true ↔
        ∀ (i : Nat) (hi : i + 1 < toyChain.chain.length),
          (toyChain.chain.get ⟨i + 1, hi⟩).calculate_hash toyDigest =
            (toyChain.chain.get ⟨i + 1, hi⟩).hash ∧
          (toyChain.chain.get ⟨i + 1, hi⟩).prev_hash =
            (toyChain.chain.get ⟨i, Nat.lt_of_succ_lt hi⟩).hash)) :=
  ⟨by decide,
    is_valid_chain_correct toyDigest 0 [(0, "First", 0)] toyChain toyChain
      (by decide)⟩

/-- C5: given a reachable (hence valid) chain whose block list is
`g :: b1 :: rest`, replacing `b1.data` by a different string `d2` on which
the digest does not collide with the original content makes
`is_valid_chain` return false. -/
theorem tampered_data_invalidates (digest : String → String) (fuel : Nat)
    (steps : List (Int × String × Nat)) (bc : Blockchain) (g b1 : Block)
    (rest : List Block) (d2 : String)
    (hreach : buildChain digest fuel steps = some bc)
    (hshape : bc.chain = g :: b1 :: rest)
    (hne : d2 ≠ b1.data)
    (hnc : digest (blockContent b1.index b1.timestamp d2 b1.prev_hash
          b1.nonce) ≠
        digest (blockContent b1.index b1.timestamp b1.data b1.prev_hash
          b1.nonce)) :
    Blockchain.is_valid_chain digest ⟨g :: { b1 with data := d2 } :: rest⟩ =
      false := by
  have hsh : b1.hash = b1.calculate_hash digest :=
    (buildChain_inv hreach).selfhash b1 (by rw [hshape]; simp)
  have hcond : ({ b1 with data := d2 } : Block).hash ≠
      ({ b1 with data := d2 } : Block).calculate_hash digest := by
    show b1.hash ≠
      digest (blockContent b1.index b1.timestamp d2 b1.prev_hash b1.nonce)
    rw [hsh]
    exact Ne.symm hnc
  show is_valid_from digest g ({ b1 with data := d2 } :: rest) = false
  simp only [is_valid_from]
  rw [if_pos hcond]

theorem tampered_data_invalidates_w :
    buildChain toyDigest 0 [(0, "First", 0)] = some toyChain ∧
    toyChain.chain = genesisToy :: firstToy :: [] ∧
    "Evil" ≠ firstToy.data ∧
    toyDigest (blockContent firstToy.index firstToy.timestamp "Evil"
        firstToy.prev_hash firstToy.nonce) ≠
      toyDigest (blockContent firstToy.index firstToy.timestamp
        firstToy.data firstToy.prev_hash firstToy.nonce) ∧
    Blockchain.is_valid_chain toyDigest
      ⟨genesisToy :: { firstToy with data := "Evil" } :: []⟩ = false :=
  ⟨by decide, by decide, by decide, by decide,
    tampered_data_invalidates toyDigest 0 [(0, "First", 0)] toyChain
      genesisToy firstToy [] "Evil" (by decide) (by decide) (by decide)
      (by decide)⟩

/-- C6: on a reachable chain, `add_block(data)` appends exactly one block
whose `index` is the previous latest block's index plus 1, whose
`prev_hash` is the previous latest block's hash, and whose `data` is the
supplied payload; and `blocks[i].index = i` holds for every position. -/
theorem add_block_appends (digest : String → String) (fuel fuel2 : Nat)
    (steps : List (Int × String × Nat)) (now : Int) (d2 : String)
    (bc bc2 : Blockchain) (latest : Block)
    (hreach : buildChain digest fuel steps = some bc)
    (hlatest : bc.latest_block = some latest)
    (hadd : Blockchain.add_block digest now fuel2 bc d2 = some bc2) :
    (∀ (i : Nat) (hi : i < bc.chain.length),
        (bc.chain.get ⟨i, hi⟩).index = i) ∧
    ∃ b, bc2.chain = bc.chain ++ [b] ∧ b.index = latest.index + 1 ∧
      b.prev_hash = latest.hash ∧ b.data = d2 := by
  have inv := buildChain_inv hreach
  refine ⟨fun i hi => inv.index_get i hi, ?_⟩
  obtain ⟨latest', b, hl', hchain, hidx, -, hdata, hprev, -, -⟩ :=
    Blockchain.add_block_spec hadd
  rw [hlatest] at hl'
  injection hl' with he
  subst he
  exact ⟨b, hchain, by rw [hidx, ← inv.latest_index hlatest], hprev, hdata⟩

theorem add_block_appends_w :
    buildChain toyDigest 0 [] = some ⟨[genesisToy]⟩ ∧
    (Blockchain.mk [genesisToy]).latest_block = some genesisToy ∧
    Blockchain.add_block toyDigest 0 0 ⟨[genesisToy]⟩ "First" =
      some toyChain ∧
    ((∀ (i : Nat) (hi : i < (Blockchain.mk [genesisToy]).chain.length),
        ((Blockchain.mk [genesisToy]).chain.get ⟨i, hi⟩).index = i) ∧
      ∃ b, toyChain.chain = (Blockchain.mk [genesisToy]).chain ++ [b] ∧
        b.index = genesisToy.index + 1 ∧ b.prev_hash = genesisToy.hash ∧
        b.data = "First") :=
  ⟨by decide, by decide, by decide,
    add_block_appends toyDigest 0 0 [] 0 "First" ⟨[genesisToy]⟩ toyChain
      genesisToy (by decide) (by decide) (by decide)⟩

/-- C7: two independent `Blockchain::new` calls (any fuels, same digest
service) produce equal chains; the genesis block has index 0, the fixed
sentinel timestamp 0 (not wall-clock), data "Genesis Block", empty
`prev_hash`, and is mined at difficulty 4. -/
theorem genesis_deterministic (digest : String → String) (f1 f2 : Nat)
    (bc1 bc2 : Blockchain)
    (h1 : Blockchain.new digest f1 = some bc1)
    (h2 : Blockchain.new digest f2 = some bc2) :
    bc1 = bc2 ∧ ∃ g, bc1.chain = [g] ∧ g.index = 0 ∧ g.timestamp = 0 ∧
      g.data = "Genesis Block" ∧ g.prev_hash = "" ∧
      g.hash.take 4 = zeros 4 := by
  constructor
  · unfold Blockchain.new at h1 h2
    rw [Option.map_eq_some'] at h1 h2
    obtain ⟨g1, hg1, rfl⟩ := h1
    obtain ⟨g2, hg2, rfl⟩ := h2
    unfold Block.mine_block at hg1 hg2
    rw [mineLoop_det hg1 hg2]
  · obtain ⟨g, hc, a1, a2, a3, a4, -, a6⟩ := Blockchain.new_genesis h1
    exact ⟨g, hc, a1, a2, a3, a4, a6⟩

theorem genesis_deterministic_w :
    Blockchain.new toyDigest 0 = some ⟨[genesisToy]⟩ ∧
    Blockchain.new toyDigest 5 = some ⟨[genesisToy]⟩ ∧
    ((Blockchain.mk [genesisToy]) = ⟨[genesisToy]⟩ ∧
      ∃ g, (Blockchain.mk [genesisToy]).chain = [g] ∧ g.index = 0 ∧
        g.timestamp = 0 ∧ g.data = "Genesis Block" ∧ g.prev_hash = "" ∧
        g.hash.take 4 = zeros 4) :=
  ⟨by decide, by decide,
    genesis_deterministic toyDigest 0 5 ⟨[genesisToy]⟩ ⟨[genesisToy]⟩
      (by decide) (by decide)⟩

/-- C8: whenever some nonce makes the digest of the block's content meet
the difficulty-4 target, the mining loop started by `Block::new` exits:
with enough fuel it returns a block.  (For the concrete SHA-256 digest the
existence of such a nonce is the standard proof-of-work assumption; the
digest is modelled as an opaque service here.) -/
theorem mining_terminates (digest : String → String) (now : Int)
    (index : Nat) (data ph : String)
    (h : ∃ n : Nat,
        (digest (blockContent index now data ph n)).take 4 = zeros 4) :
    ∃ (fuel : Nat) (b : Block),
      Block.new digest now fuel index data ph = some b := by
  obtain ⟨n, hn⟩ := h
  refine ⟨n, ?_⟩
  unfold Block.new Block.mine_block
  exact mineLoop_term n _ rfl ⟨n, Nat.zero_le n, by omega, hn⟩

theorem mining_terminates_w :
    (∃ n : Nat,
        (toyDigest (blockContent 1 0 "a" "b" n)).take 4 = zeros 4) ∧
    ∃ (fuel : Nat) (b : Block),
      Block.new toyDigest 0 fuel 1 "a" "b" = some b :=
  ⟨⟨0, by decide⟩, mining_terminates toyDigest 0 1 "a" "b" ⟨0, by decide⟩⟩

/-- C9: every reachable chain is non-empty, its first block has index 0
and empty `prev_hash`, and `latest_block` (the `unwrap` in the Rust code)
always yields a block — no public operation can observe an empty chain. -/
theorem chain_never_empty (digest : String → String) (fuel : Nat)
    (steps : List (Int × String × Nat)) (bc : Blockchain)
    (h : buildChain digest fuel steps = some bc) :
    bc.chain ≠ [] ∧ bc.latest_block.isSome = true ∧
    ∃ g t, bc.chain = g :: t ∧ g.index = 0 ∧ g.prev_hash = "" := by
  have inv := buildChain_inv h
  refine ⟨inv.ne, ?_, inv.head_shape⟩
  show bc.chain.getLast?.isSome = true
  simpa using List.getLast?_isSome.2 inv.ne

theorem chain_never_empty_w :
    buildChain toyDigest 0 [(0, "First", 0)] = some toyChain ∧
    (toyChain.chain ≠ [] ∧ toyChain.latest_block.isSome = true ∧
      ∃ g t, toyChain.chain = g :: t ∧ g.index = 0 ∧ g.prev_hash = "") :=
  ⟨by decide,
    chain_never_empty toyDigest 0 [(0, "First", 0)] toyChain (by decide)⟩

/-- C10: the digest-input encoding of `calculate_hash` (un-delimited
concatenation of the decimal renderings of index, timestamp, data,
prev_hash, nonce) is not injective: blocks `(index 12, timestamp 3)` and
`(index 1, timestamp 23)` with equal remaining fields have the same
concatenated content string, hence the same digest under every digest
function. -/
theorem content_encoding_not_injective :
    blockContent 12 3 "x" "y" 0 = blockContent 1 23 "x" "y" 0 ∧
    (⟨12, 3, "x", "y", "", 0⟩ : Block) ≠ (⟨1, 23, "x", "y", "", 0⟩ : Block) ∧
    ∀ digest : String → String,
      Block.calculate_hash digest ⟨12, 3, "x", "y", "", 0⟩ =
        Block.calculate_hash digest ⟨1, 23, "x", "y", "", 0⟩ := by
  refine ⟨by decide, by decide, fun digest => ?_⟩
  show digest (blockContent 12 3 "x" "y" 0) =
    digest (blockContent 1 23 "x" "y" 0)
  exact congrArg digest (by decide)
